import Mathlib

/-!
Verification of the `fdict` flattened nested dictionary (`src/fdict/fdict.py`).

The backing store `self.d` is modelled as an association list from full-path
strings to entries.  An entry is either a stored leaf value (leaf payloads are
opaque; we model them as naturals, which also covers the plain integers the
counting branch of `_build_metadata` stores) or, in fastview mode, a node
child-set (a Python `set` of full paths, modelled as a duplicate-free list in
insertion order; `set.pop` order, unspecified in Python, is determinized to
the head of the list).  The delimiter is fixed to the default `'/'`.
-/

set_option autoImplicit false

deriving instance DecidableEq for Except

namespace Fdict

/-- An entry of the backing dict: a leaf value (a plain object, also used by
the counting branch of `_build_metadata`, which stores bare integers), or a
fastview node child-set. -/
inductive Entry where
  | leaf (v : Nat)
  | node (children : List String)
  deriving DecidableEq, Repr

/-- The backing dict `self.d`: full path → entry, in insertion order. -/
abbrev Store := List (String × Entry)

/-- Dictionary lookup `d[k]` (first binding wins; stores built by the
operations have unique keys, as Python dicts do). -/
def dlookup : Store → String → Option Entry
  | [], _ => none
  | (k, e) :: rest, key => if k = key then some e else dlookup rest key

/-- Membership test `k in d`. -/
def dmem (d : Store) (key : String) : Bool := (dlookup d key).isSome

/-- Dictionary write `d[k] = e`: replace in place if the key exists, else
append (Python 3.7+ dicts preserve insertion order). -/
def dset : Store → String → Entry → Store
  | [], key, e => [(key, e)]
  | (k, e0) :: rest, key, e =>
      if k = key then (key, e) :: rest else (k, e0) :: dset rest key e

/-- Dictionary deletion `del d[k]` (no-op when absent; the operations only
delete keys they have just tested or enumerated). -/
def ddel : Store → String → Store
  | [], _ => []
  | (k, e) :: rest, key => if k = key then rest else (k, e) :: ddel rest key

/-- Keys of the backing dict, in order. -/
def keysOf (d : Store) : List String := d.map Prod.fst

/-- Python `set.add`: append unless already a member. -/
def sadd (cs : List String) (x : String) : List String :=
  if x ∈ cs then cs else cs ++ [x]

/-- Python `set.update`: add every element of the second set. -/
def supdate (cs new : List String) : List String := new.foldl sadd cs

/-- Character data of a string (paths are manipulated character-wise, as
Python string slicing does). -/
def chars (s : String) : List Char := s.data

/-- Test `s.endswith('/')`, the node-marker test used throughout the source. -/
def endsWithDelim (s : String) : Bool := (chars s).getLast? = some '/'

/-- Prefix test on character lists: `listStarts pat s` holds when `pat` is an
initial segment of `s`. -/
def listStarts : List Char → List Char → Bool
  | [], _ => true
  | _ :: _, [] => false
  | a :: as, b :: bs => a == b && listStarts as bs

/-- Test `s.startswith(pat)` (used by the plain-mode prefix scans). -/
def strStarts (s pat : String) : Bool := listStarts (chars pat) (chars s)

/-- Python slice `s[n:]` (drop the first `n` characters). -/
def strDropChars (n : Nat) (s : String) : String := String.mk ((chars s).drop n)

/-- Python `path.rfind('/', 0, bound)`: the largest index `i < bound` with
`path[i] = '/'`, or `none` for `-1`. -/
def rfindBelow (s : List Char) : Nat → Option Nat
  | 0 => none
  | b + 1 => if s.get? b = some '/' then some b else rfindBelow s b

/-- Loop of `fdict._get_all_parent_nodes`: repeatedly `rfind` the delimiter
below the previous hit, yielding `path[:pos+1]` each time.  The repeated
`rfind` descent is expressed as a downward scan over candidate positions:
positions holding the delimiter are exactly the successive `rfind` results,
and the others are skipped without yielding. -/
def parentNodesFrom (s : List Char) : Nat → List String
  | 0 => []
  | b + 1 =>
      if s.get? b = some '/' then String.mk (s.take (b + 1)) :: parentNodesFrom s b
      else parentNodesFrom s b

/-- `fdict._get_all_parent_nodes(path)`: all parent node paths (with their
trailing delimiter) of a leaf, nearest parent first. -/
def parentNodes (path : String) : List String :=
  parentNodesFrom (chars path) (chars path).length

/-- `fdict._get_parent_node(path)`: the immediate parent node path (with its
trailing delimiter), or `''` when the path is top-level. -/
def getParentNode (path : String) : String :=
  let s := chars path
  let endpos := if endsWithDelim path then s.length - 1 else s.length
  match rfindBelow s endpos with
  | none => ""
  | some pos => String.mk (s.take (pos + 1))

/-- Join the non-empty components with the delimiter (Python
`delimiter.join(filter(None, parts))`). -/
def joinSlash : List String → String
  | [] => ""
  | [s] => s
  | s :: rest => s ++ "/" ++ joinSlash rest

/-- `fdict._build_path(key, prepend)`: join the non-empty components of
`[prepend, rootpath, key]`. -/
def buildPathP (pre rootpath key : String) : String :=
  joinSlash (([pre, rootpath, key]).filter (fun s => !(s == "")))

/-- `fdict._build_path(key)` (no prepend). -/
def buildPath (rootpath key : String) : String := buildPathP "" rootpath key

example : parentNodes "a/b/c" = ["a/b/", "a/"] := by decide
example : getParentNode "a/b" = "a/" := by decide
example : getParentNode "a/b/" = "a/" := by decide
example : getParentNode "a/" = "" := by decide
example : getParentNode "a" = "" := by decide
example : buildPath "a" "b" = "a/b" := by decide
example : buildPath "" "b" = "b" := by decide
example : buildPath "a" "a/" = "a/a/" := by decide
example : buildPathP "b" "a" "" = "b/a" := by decide

/-! ## Flattener (`fdict.flatkeys`)

`flatkeys` takes an arbitrary Python mapping whose keys need not be strings:
a key is an opaque object with a `str()` form.  We model keys as either
strings or integers (any non-string stringifiable key behaves like the
integer case). -/

/-- A Python dict key: a string, or a non-string object such as an integer
(carrying its `str()` form through `toStr`). -/
inductive PKey where
  | str (s : String)
  | int (n : Nat)
  deriving DecidableEq, Repr

/-- Python `str(k)`. -/
def PKey.toStr : PKey → String
  | .str s => s
  | .int n => toString n

/-- A value in a nested mapping: a non-mapping leaf (opaque, modelled as a
natural) or a nested mapping given as a key-value list in insertion order. -/
inductive NVal where
  | leaf (v : Nat)
  | dict (es : List (PKey × NVal))

mutual

/-- Size of a nested value (for fuel bounds of the worklist loop). -/
def nvSize : NVal → Nat
  | .leaf _ => 0
  | .dict es => 1 + esSize es

/-- Size of a nested mapping's entry list. -/
def esSize : List (PKey × NVal) → Nat
  | [] => 0
  | e :: rest => 1 + nvSize e.2 + esSize rest

end

/-- Size of the flattening worklist (`dicts` in the source). -/
def wsSize (ws : List (String × List (PKey × NVal))) : Nat :=
  (ws.map (fun w => 1 + esSize w.2)).sum

/-- The flat dict written by `flatkeys`: key → leaf payload. -/
abbrev FlatMap := List (PKey × Nat)

/-- Write `flat[k] = v` (replace in place or append, like a Python dict). -/
def finsert : FlatMap → PKey → Nat → FlatMap
  | [], key, v => [(key, v)]
  | (k, v0) :: rest, key, v =>
      if k = key then (key, v) :: rest else (k, v0) :: finsert rest key v

/-- One pass of the `for k, v in d.items()` loop of `flatkeys`, restricted to
its effect on the worklist: each nested-mapping value is pushed as
`(prefix + str(k) + sep, v)`, in iteration order. -/
def pushesOf (sep pre : String) (es : List (PKey × NVal)) :
    List (String × List (PKey × NVal)) :=
  es.filterMap (fun e =>
    match e.2 with
    | .dict sub => some (pre ++ e.1.toStr ++ sep, sub)
    | .leaf _ => none)

/-- One pass of the `for k, v in d.items()` loop of `flatkeys`, restricted to
its effect on `flat`: each non-mapping value is stored under
`prefix + str(k)` when the prefix is non-empty, and under the original key
object `k` unchanged when the prefix is empty. -/
def writeLeaves (pre : String) (es : List (PKey × NVal)) (flat : FlatMap) : FlatMap :=
  es.foldl (fun fl e =>
    match e.2 with
    | .leaf x => finsert fl (if pre ≠ "" then .str (pre ++ e.1.toStr) else e.1) x
    | .dict _ => fl) flat

/-- The `while dicts:` worklist loop of `flatkeys`.  `dicts.pop()` takes the
most recently appended entry, so the worklist is a stack; it is kept here in
reversed order (head = Python's last element), and the children pushed while
iterating one mapping end up reversed at the head.  The loop always
terminates (the worklist size strictly decreases); the structural fuel is
chosen large enough to never run out. -/
def flatkeysAux (sep : String) : Nat → List (String × List (PKey × NVal)) → FlatMap → FlatMap
  | _, [], flat => flat
  | 0, _ :: _, flat => flat
  | fuel + 1, (pre, es) :: rest, flat =>
      flatkeysAux sep fuel ((pushesOf sep pre es).reverse ++ rest) (writeLeaves pre es flat)

/-- `fdict.flatkeys(d, sep)`. -/
def flatkeys (d : List (PKey × NVal)) (sep : String) : FlatMap :=
  flatkeysAux sep (wsSize [("", d)] + 1) [("", d)] []

example :
    flatkeys [(.int 1, .leaf 42), (.str "foo", .leaf 12),
      (.str "bar", .dict [(.str "qux", .leaf 1)])] "." =
    [(.int 1, 42), (.str "foo", 12), (.str "bar.qux", 1)] := by decide

example :
    flatkeys [(.int 1, .dict [(.int 2, .dict [(.int 3, .leaf 4)])])] "." =
    [(.str "1.2.3", 4)] := by decide

example :
    flatkeys [(.int 1, .dict [(.int 2, .dict [(.int 3, .leaf 4)]), (.int 5, .leaf 6)])] "." =
    [(.str "1.5", 6), (.str "1.2.3", 4)] := by decide

/-- Keys-are-strings test on a flat mapping.  Source operations that apply
string-only methods to the flat keys are faithful to a string-keyed store
exactly when this holds. -/
def flatAllStr (l : FlatMap) : Bool :=
  l.all (fun kv =>
    match kv.1 with
    | .str _ => true
    | .int _ => false)

/-- Projection of a flat mapping onto the string-keyed store, dropping
non-string keys; it loses nothing exactly when `flatAllStr` holds. -/
def strProject (l : FlatMap) : Store :=
  l.filterMap (fun e =>
    match e.1 with
    | .str s => some (s, Entry.leaf e.2)
    | .int _ => none)

/-- String-keyed reading of a `flatkeys` result, used where the source hands
the flattened dict to the string-keyed store.  In `__setitem__` the mapping
flattened is `{built-path-string: value}`, whose flat keys are therefore all
strings, so the projection drops nothing there.  `fdinit` and `updateFdDict`
use it to model `__init__`/`update` for string-keyed input mappings: on an
input whose flattened form retains a non-string key, the source would store
that key object itself in the backing dict (and, in fastview mode, raise
`AttributeError` on it inside `_build_metadata`), which the string-keyed
store does not represent.  `__eq__` is modelled over the unprojected flat
mapping instead — see `eqItemCheck`. -/
def flatkeysStr (d : List (PKey × NVal)) : Store := strProject (flatkeys d "/")

/-! ## The fdict state and its operations -/

/-- The state of an `fdict`: shared backing dict, rootpath and index mode
(`delimiter` is fixed to the default `'/'`; `kwargs` carry nothing for plain
`fdict`). -/
structure Fd where
  d : Store
  rootpath : String
  fastview : Bool
  deriving DecidableEq, Repr

/-- `fdict.__getitem__`: the leaf test is `key in self.d` on the raw key as
written in the source (not on the built full path); otherwise a new view
sharing the dict is returned, with rootpath `self._build_path(key)`. -/
def getitemFd (x : Fd) (key : String) : Entry ⊕ Fd :=
  match dlookup x.d key with
  | some e => Sum.inl e
  | none => Sum.inr ⟨x.d, buildPath x.rootpath key, x.fastview⟩

/-- Inner walk of the fastview branch of `fdict._build_metadata`: step
through the parent nodes nearest-first, adding the previous path (`lastparent`,
initially the leaf) to each parent's child-set, creating the set if absent. -/
def addParents : Store → String → List String → Store
  | d, _, [] => d
  | d, lastparent, parent :: rest =>
      addParents
        (match dlookup d parent with
         | some (.node cs) => dset d parent (.node (sadd cs lastparent))
         | some (.leaf _) => d
         | none => dset d parent (.node [lastparent]))
        parent rest

/-- Fastview branch of `fdict._build_metadata` (the `some (.leaf _)` case in
`addParents` would be a Python `AttributeError` — an integer has no `.add` —
and is unreachable in fastview-maintained stores, where every node-marker key
holds a set). -/
def buildMetadataFast (d : Store) (fullkeys : List String) : Store :=
  fullkeys.foldl (fun dd fullkey =>
    if !(endsWithDelim fullkey) then addParents dd fullkey (parentNodes fullkey) else dd) d

/-- Counting branch of `fdict._build_metadata`: `self.d[parent] += 1` on the
stored integer, starting it at 1.  (The `node` case would be a Python
`TypeError`; counting-mode stores hold no sets.)  Note that every call site
of `_build_metadata` in the source is guarded by `if self.fastview:`, so this
branch is never reached from the public operations. -/
def buildMetadataCount (d : Store) (fullkeys : List String) : Store :=
  fullkeys.foldl (fun dd fullkey =>
    if !(endsWithDelim fullkey) then
      (parentNodes fullkey).foldl (fun dd2 parent =>
        match dlookup dd2 parent with
        | some (.leaf n) => dset dd2 parent (.leaf (n + 1))
        | some (.node cs) => dset dd2 parent (.node cs)
        | none => dset dd2 parent (.leaf 1)) dd
    else dd) d

/-- `fdict._build_metadata`, dispatching on the mode as the method itself
does. -/
def buildMetadata (fastview : Bool) (d : Store) (fullkeys : List String) : Store :=
  if fastview then buildMetadataFast d fullkeys else buildMetadataCount d fullkeys

/-- `fdict.__init__(d, fastview=...)` for a user-supplied nested mapping:
flatten the keys, then (fastview only) build the index for all flat keys.
Modelled for mappings whose flattened form is string-keyed — see
`flatkeysStr` for the scope note on non-string keys. -/
def fdinit (m : List (PKey × NVal)) (fastview : Bool) : Fd :=
  let d0 := flatkeysStr m
  ⟨if fastview then buildMetadataFast d0 (keysOf d0) else d0, "", fastview⟩

/-- Weight of an entry (used to size the fuel of the traversal and deletion
loops). -/
def entryWeight : Entry → Nat
  | .leaf _ => 0
  | .node cs => cs.length

/-- Total weight of a store: one per entry plus the child-set sizes. -/
def storeWeight (d : Store) : Nat := (d.map (fun kv => 1 + entryWeight kv.2)).sum

/-- Fuel for the fastview `while children:` traversal: in any store whose
child-sets reference existing entries with one parent each, the loop pops at
most `storeWeight d` elements beyond the initial set; where the fuel runs out
(cyclic metadata) the Python loop does not terminate at all. -/
def travFuel (d : Store) : Nat := 2 * storeWeight d + 2

/-- The fastview `while children:` loop of `fdict.viewkeys`: pop a child
(Python pops an arbitrary set element; the list head is popped here), expand
node children through their stored set (`KeyError` when the set entry is
missing, `TypeError`-like failure when it is not a set), yield leaf children,
and yield node children only when `nodes` is set.  Errors carry the offending
path. -/
def travKeysAux (d : Store) (lp : Nat) (nodes : Bool) :
    Nat → List String → List String → Except String (List String)
  | _, [], acc => .ok acc
  | 0, _ :: _, _ => .error "fuel"
  | fuel + 1, child :: rest, acc =>
      if endsWithDelim child then
        match dlookup d child with
        | some (.node cs) =>
            travKeysAux d lp nodes fuel (supdate rest cs)
              (if nodes then acc ++ [strDropChars lp child] else acc)
        | some (.leaf _) => .error child
        | none => .error child
      else
        travKeysAux d lp nodes fuel rest (acc ++ [strDropChars lp child])

/-- The fastview `while children:` loop of `fdict.viewitems`: as
`travKeysAux` but each yield pairs the (trimmed) path with the stored entry,
so yielding a leaf also looks it up (`KeyError` when absent). -/
def travItemsAux (d : Store) (lp : Nat) (nodes : Bool) :
    Nat → List String → List (String × Entry) → Except String (List (String × Entry))
  | _, [], acc => .ok acc
  | 0, _ :: _, _ => .error "fuel"
  | fuel + 1, child :: rest, acc =>
      if endsWithDelim child then
        match dlookup d child with
        | some (.node cs) =>
            travItemsAux d lp nodes fuel (supdate rest cs)
              (if nodes then acc ++ [(strDropChars lp child, Entry.node cs)] else acc)
        | some (.leaf _) => .error child
        | none => .error child
      else
        match dlookup d child with
        | some e => travItemsAux d lp nodes fuel rest (acc ++ [(strDropChars lp child, e)])
        | none => .error child

/-- `fdict.viewkeys(fullpath, nodes, rootpath)` over a store with the given
own rootpath; `rootpathO = ""` stands for the `None` default (the override is
falsy, so `self.rootpath` is used). -/
def viewkeysG (d : Store) (selfRoot : String) (fastview fullpath nodes : Bool)
    (rootpathO : String) : Except String (List String) :=
  let rootpath := if rootpathO = "" then selfRoot else rootpathO
  if rootpath = "" then
    .ok (if fastview then (keysOf d).filter (fun k => !(endsWithDelim k) || nodes) else keysOf d)
  else
    let pattern := rootpath ++ "/"
    let lp := if fullpath then 0 else (chars pattern).length
    if fastview then
      match dlookup d pattern with
      | some (.node cs) => travKeysAux d lp nodes (travFuel d) cs []
      | some (.leaf _) => .error pattern
      | none => .ok []
    else
      .ok (((keysOf d).filter (fun k => strStarts k pattern)).map (strDropChars lp))

/-- `fdict.viewitems(fullpath, nodes, rootpath)`, same structure as
`viewkeysG` but yielding (path, entry) pairs. -/
def viewitemsG (d : Store) (selfRoot : String) (fastview fullpath nodes : Bool)
    (rootpathO : String) : Except String (List (String × Entry)) :=
  let rootpath := if rootpathO = "" then selfRoot else rootpathO
  if rootpath = "" then
    .ok (if fastview then d.filter (fun kv => !(endsWithDelim kv.1) || nodes) else d)
  else
    let pattern := rootpath ++ "/"
    let lp := if fullpath then 0 else (chars pattern).length
    if fastview then
      match dlookup d pattern with
      | some (.node cs) => travItemsAux d lp nodes (travFuel d) cs []
      | some (.leaf _) => .error pattern
      | none => .ok []
    else
      .ok ((d.filter (fun kv => strStarts kv.1 pattern)).map
        (fun kv => (strDropChars lp kv.1, kv.2)))

/-- `fdict.viewitems` with every argument at its default, i.e. Python
`x.items()`. -/
def itemsFd (x : Fd) : Except String (List (String × Entry)) :=
  viewitemsG x.d x.rootpath x.fastview false false ""

/-- `fdict.__len__`: raw dict length at the root, else the number of keys
yielded by `viewkeys()`. -/
def lenFd (x : Fd) : Except String Nat :=
  if x.rootpath = "" then .ok x.d.length
  else (viewkeysG x.d x.rootpath x.fastview false false "").map List.length

example :
    fdinit [(.str "a", .dict [(.str "b", .leaf 1)])] true =
    ⟨[("a/b", .leaf 1), ("a/", .node ["a/b"])], "", true⟩ := by decide

example : lenFd (fdinit [(.str "a", .dict [(.str "b", .leaf 1)])] true) = .ok 2 := by decide

example :
    itemsFd (fdinit [(.str "a", .dict [(.str "b", .leaf 1)])] true) =
    .ok [("a/b", .leaf 1)] := by decide

/-! ## Deletion

A mutating operation returns the store together with an optional raised
error; when an error is present the store is the state at the moment the
exception propagated (Python mutations made before the raise stay). -/

/-- Result of a mutating operation: final store, plus the raised `KeyError`
key (or other failure marker) if the operation raised. -/
abbrev MRes := Store × Option String

/-- Python slice `s[:len(s)-1]` (drop the last character). -/
def strDropLast (s : String) : String := String.mk ((chars s).dropLast)

/-- The `for k in keystodel:` loop of `fdict.__delitem__`: delete each key,
raising `KeyError` (the offending key) when one is missing. -/
def ddelAll : Store → List String → MRes
  | d, [] => (d, none)
  | d, k :: rest => if dmem d k then ddelAll (ddel d k) rest else (d, some k)

/-- Tail of the nested-delete branch of `fdict.__delitem__`: delete all
enumerated keys, then raise `KeyError(key)` when nothing at all was
deleted. -/
def delFinish (d : Store) (keystodel : List String) (flagdel : Bool) (key : String) : MRes :=
  match ddelAll d keystodel with
  | (d1, some e) => (d1, some e)
  | (d1, none) => if keystodel.isEmpty && !flagdel then (d1, some key) else (d1, none)

/-- `fdict.__delitem__(key)`.  The structural fuel bounds the cascade
recursion `self.__delitem__(parentnode)`; every recursive call is preceded by
a successful `set.remove`, so the store weight strictly decreases and
`storeWeight d + 1` fuel (see `delitemFd`) never runs out.  Error returns
carry the path of the Python `KeyError` (or, for `remove`/`add` on a non-set
entry, the path whose entry had the wrong type). -/
def delitemAux (fastview : Bool) (rootpath : String) :
    Nat → Store → String → MRes
  | 0, d, _ => (d, some "recursion limit")
  | fuel + 1, d, key =>
    let fullkey := buildPath rootpath key
    if dmem d fullkey then
      -- leaf delete
      if fastview then
        let parentnode := getParentNode fullkey
        if parentnode = "" then (ddel d fullkey, none)
        else
          match dlookup d parentnode with
          | some (.node cs) =>
              if fullkey ∈ cs then
                let cs1 := cs.erase fullkey
                let d1 := dset d parentnode (.node cs1)
                if cs1.isEmpty then
                  match delitemAux fastview rootpath fuel d1 parentnode with
                  | (d2, some e) => (d2, some e)
                  | (d2, none) => (ddel d2 fullkey, none)
                else (ddel d1 fullkey, none)
              else (d, some fullkey)
          | some (.leaf _) => (d, some parentnode)
          | none => (d, some parentnode)
      else (ddel d fullkey, none)
    else
      -- nested delete
      let dirkey := fullkey ++ "/"
      if fastview then
        match viewkeysG d rootpath true true true fullkey with
        | .error e => (d, some e)
        | .ok keystodel =>
            let step := if dmem d dirkey then (ddel d dirkey, true) else (d, false)
            let d1 := step.1
            let flagdel := step.2
            let parentnode := getParentNode dirkey
            if parentnode = "" then delFinish d1 keystodel flagdel key
            else
              match dlookup d1 parentnode with
              | some (.node cs) =>
                  if dirkey ∈ cs then
                    let cs1 := cs.erase dirkey
                    let d2 := dset d1 parentnode (.node cs1)
                    if cs1.isEmpty then
                      match delitemAux fastview rootpath fuel d2 parentnode with
                      | (d3, some e) => (d3, some e)
                      | (d3, none) => delFinish d3 keystodel flagdel key
                    else delFinish d2 keystodel flagdel key
                  else (d1, some dirkey)
              | some (.leaf _) => (d1, some parentnode)
              | none => (d1, some parentnode)
      else
        delFinish d ((keysOf d).filter (fun k => strStarts k dirkey)) false key

/-- `fdict.__delitem__(key)` with its fuel instantiated (sufficient for every
terminating Python run, see `delitemAux`). -/
def delitemFd (d : Store) (rootpath : String) (fastview : Bool) (key : String) : MRes :=
  delitemAux fastview rootpath (storeWeight d + 1) d key

/-! ## Insertion -/

/-- The `for parent in parents:` loop of the fastview scalar branch of
`fdict.__setitem__`: for every parent node path, if the path without its
trailing delimiter is a stored leaf, delete it (a leaf above the new leaf
loses to the nested form). -/
def delParentSingles (rootpath : String) : Store → List String → MRes
  | d, [] => (d, none)
  | d, parent :: rest =>
      let parentleaf := strDropLast parent
      if dmem d parentleaf then
        match delitemFd d rootpath true parentleaf with
        | (d1, some e) => (d1, some e)
        | (d1, none) => delParentSingles rootpath d1 rest
      else delParentSingles rootpath d rest

/-- `fdict.__setitem__(key, value)` for a value that is a scalar or a plain
(non-`fdict`) nested mapping.  The value being an `fdict` of the same class
(which goes through `self.update`) is not modelled; no claim exercises it. -/
def setitemFd (x : Fd) (key : String) (value : NVal) : MRes :=
  let fullkey := buildPath x.rootpath key
  match value with
  | .dict es =>
      -- a dict value: first delete the previous value if it was a singleton
      match (if dmem x.d fullkey then delitemFd x.d x.rootpath x.fastview key
             else (x.d, none)) with
      | (d0, some e) => (d0, some e)
      | (d0, none) =>
          match es with
          | [] => (d0, none)  -- empty dict: nothing to store
          | _ :: _ =>
              -- flatten {self._build_path(prepend=key): value} and merge
              let d2 := flatkeysStr [(.str (buildPathP key x.rootpath ""), .dict es)]
              let d1 := d2.foldl (fun dd kv => dset dd kv.1 kv.2) d0
              ((if x.fastview then buildMetadataFast d1 (keysOf d2) else d1), none)
  | .leaf v =>
      if x.fastview then
        let dirkey := fullkey ++ "/"
        match (if dmem x.d dirkey then delitemFd x.d x.rootpath true key
               else (x.d, none)) with
        | (d0, some e) => (d0, some e)
        | (d0, none) =>
            match delParentSingles x.rootpath d0 (parentNodes fullkey) with
            | (d1, some e) => (d1, some e)
            | (d1, none) => (dset (buildMetadataFast d1 [fullkey]) fullkey (.leaf v), none)
      else (dset x.d fullkey (.leaf v), none)

/-! ## Merge (`fdict.update`) -/

/-- `fdict.update(d2)` for `d2` an `fdict`: walk `d2`'s leaves
(`viewitems(fullpath=False, nodes=False)`, a one-shot generator), rebase them
under our rootpath, and bulk-write them.  In fastview mode the source then
calls `_build_metadata` on a generator expression over `d2items` — but that
generator was already exhausted by the `dict.update` above, so the metadata
rebuild is fed no keys at all and the index is left untouched. -/
def updateFd (x y : Fd) : Except String Store :=
  match viewitemsG y.d y.rootpath y.fastview false false "" with
  | .error e => .error e
  | .ok d2items =>
      let d1 :=
        if x.rootpath ≠ "" then
          d2items.foldl (fun dd kv => dset dd (buildPath x.rootpath kv.1) kv.2) x.d
        else
          d2items.foldl (fun dd kv => dset dd kv.1 kv.2) x.d
      .ok (if x.fastview then buildMetadataFast d1 [] else d1)

/-- `fdict.update(d2)` for `d2` a plain mapping: flatten it, rebase and
bulk-write its leaves.  In fastview mode the source then hands
`_build_metadata` a generator of `(path, value)` tuples (here `d2items` is a
restartable dict view, not an exhausted generator); a tuple has no
`.endswith`, so Python raises `AttributeError` on the first element whenever
the flattened mapping is non-empty.  Modelled for mappings whose flattened
form is string-keyed — see `flatkeysStr` for the scope note on non-string
keys. -/
def updateFdDict (x : Fd) (d2 : List (PKey × NVal)) : Except String Store :=
  let flat := flatkeysStr d2
  let d1 :=
    if x.rootpath ≠ "" then
      flat.foldl (fun dd kv => dset dd (buildPath x.rootpath kv.1) kv.2) x.d
    else
      flat.foldl (fun dd kv => dset dd kv.1 kv.2) x.d
  if x.fastview && !flat.isEmpty then .error "AttributeError" else .ok d1

/-! ## Equality (`fdict.__eq__`) -/

/-- Python `==` on two stored values: plain equality on leaves, set equality
on child-sets. -/
def entryEqPy : Entry → Entry → Bool
  | .leaf a, .leaf b => a == b
  | .node a, .node b => a.all (fun s => b.contains s) && b.all (fun s => a.contains s)
  | _, _ => false

/-- Python `==` on two backing dicts: same keys, pairwise `==` values. -/
def storeEqPy (d1 d2 : Store) : Bool :=
  d1.all (fun kv =>
    match dlookup d2 kv.1 with
    | some e => entryEqPy kv.2 e
    | none => false) &&
  d2.all (fun kv => dmem d1 kv.1)

/-- `fdict.__eq__(d2)` for `d2` an `fdict` of the same class: raw backing
dict comparison when our rootpath is empty; otherwise size check first, then
each of `d2`'s items is looked up under our rootpath. -/
def eqFdFd (x y : Fd) : Except String Bool :=
  if x.rootpath = "" then .ok (storeEqPy x.d y.d)
  else
    match lenFd x with
    | .error e => .error e
    | .ok n1 =>
        match lenFd y with
        | .error e => .error e
        | .ok n2 =>
            if n1 ≠ n2 then .ok false
            else
              match viewitemsG y.d y.rootpath y.fastview false false "" with
              | .error e => .error e
              | .ok items2 =>
                  .ok (items2.all (fun kv =>
                    match dlookup x.d (buildPath x.rootpath kv.1) with
                    | some e => entryEqPy e kv.2
                    | none => false))

/-- The `for k, v in d2items:` loop of `fdict.__eq__` over a flattened plain
mapping: build each flat key's full path under our rootpath, look it up and
compare with Python `==`, returning False at the first failing item.  A
non-string key reaches `str.join` inside `_build_path` and raises
`TypeError` — except the Python-falsy integer 0, which `filter(None, ...)`
drops from the components before the join, leaving just the rootpath. -/
def eqItemCheck (d : Store) (rootpath : String) : List (PKey × Nat) → Except String Bool
  | [] => .ok true
  | (PKey.str s, v) :: rest =>
      (match dlookup d (buildPath rootpath s) with
       | some e => if entryEqPy e (Entry.leaf v) then eqItemCheck d rootpath rest else .ok false
       | none => .ok false)
  | (PKey.int 0, v) :: rest =>
      (match dlookup d (buildPath rootpath "") with
       | some e => if entryEqPy e (Entry.leaf v) then eqItemCheck d rootpath rest else .ok false
       | none => .ok false)
  | (PKey.int (_ + 1), _) :: _ => .error "TypeError"

/-- `fdict.__eq__(d2)` for `d2` a plain mapping: flatten it — keeping every
key, of whatever type, as the source's `flatkeys` does — size check against
`len(self)`, then the item-by-item comparison loop. -/
def eqFdDict (x : Fd) (d2 : List (PKey × NVal)) : Except String Bool :=
  let flat := flatkeys d2 "/"
  match lenFd x with
  | .error e => .error e
  | .ok n1 =>
      if n1 ≠ flat.length then .ok false
      else eqItemCheck x.d x.rootpath flat

/-! ## Well-formedness predicates -/

/-- Uniqueness of the keys of a store (Python dicts cannot hold a key
twice; every store reachable through the operations satisfies this). -/
def nodupKeys (d : Store) : Bool :=
  match d with
  | [] => true
  | (k, _) :: rest => !(dmem rest k) && nodupKeys rest

theorem dlookup_dset_self (d : Store) (key : String) (e : Entry) :
    dlookup (dset d key e) key = some e := by
  induction d with
  | nil => simp [dset, dlookup]
  | cons kv rest ih =>
      obtain ⟨k, e0⟩ := kv
      by_cases h : k = key
      · simp [dset, h, dlookup]
      · simp [dset, h, dlookup, ih]

theorem dlookup_dset_ne (d : Store) (key k : String) (e : Entry) (h : k ≠ key) :
    dlookup (dset d key e) k = dlookup d k := by
  induction d with
  | nil => simp [dset, dlookup, Ne.symm h]
  | cons kv rest ih =>
      obtain ⟨k0, e0⟩ := kv
      by_cases h0 : k0 = key
      · subst h0
        simp [dset, dlookup, Ne.symm h]
      · simp only [dset, if_neg h0, dlookup]
        by_cases h1 : k0 = k
        · simp [h1]
        · simp [h1, ih]

theorem dlookup_mem {d : Store} {k : String} {e : Entry} (h : dlookup d k = some e) :
    (k, e) ∈ d := by
  induction d with
  | nil => simp [dlookup] at h
  | cons kv rest ih =>
      obtain ⟨k0, e0⟩ := kv
      by_cases h0 : k0 = k
      · subst h0
        simp [dlookup] at h
        simp [h]
      · simp [dlookup, h0] at h
        exact List.mem_cons_of_mem _ (ih h)

theorem dlookup_eq_none_iff (d : Store) (k : String) :
    dlookup d k = none ↔ k ∉ keysOf d := by
  induction d with
  | nil => simp [dlookup, keysOf]
  | cons kv rest ih =>
      obtain ⟨k0, e0⟩ := kv
      by_cases h0 : k0 = k
      · subst h0
        simp [dlookup, keysOf]
      · simp [dlookup, h0, keysOf, ih, Ne.symm h0]

theorem dlookup_of_mem_nodup {d : Store} {k : String} {e : Entry}
    (hd : nodupKeys d = true) (h : (k, e) ∈ d) : dlookup d k = some e := by
  induction d with
  | nil => simp at h
  | cons kv rest ih =>
      obtain ⟨k0, e0⟩ := kv
      simp only [nodupKeys, Bool.and_eq_true, Bool.not_eq_true'] at hd
      rcases List.mem_cons.mp h with h1 | h1
      · rw [Prod.mk.injEq] at h1
        obtain ⟨hk, he⟩ := h1
        subst hk
        subst he
        simp [dlookup]
      · by_cases h0 : k0 = k
        · exfalso
          subst h0
          have hsome : dlookup rest k0 = some e := ih hd.2 h1
          simp [dmem, hsome] at hd
        · simp only [dlookup, if_neg h0]
          exact ih hd.2 h1

/-! ## Traversal lemmas (for claim C4) -/

/-- C1: the claim states that indexing returns the stored value whenever the
full path `rootpath + '/' + key` is a stored leaf, and a new shared-store
view otherwise.  The code tests `key in self.d` on the raw key instead of on
the built full path, so on the store `{'a/b': 1}` the view rooted at `'a'`
indexed with `'b'` returns a new view rooted at `'a/b'` even though the full
path `'a/b'` is a stored leaf — contradicting the claim (and the class's own
docstring, which promises `['item1']['item2']` access to stored items). -/
theorem c1_code_evaluation :
    dlookup [("a/b", Entry.leaf 1)] (buildPath "a" "b") = some (Entry.leaf 1) ∧
    getitemFd ⟨[("a/b", Entry.leaf 1)], "a", false⟩ "b"
      = Sum.inr ⟨[("a/b", Entry.leaf 1)], "a/b", false⟩ := by decide

/-! ## Claim C2 -/

/-- C2 (counterexample): in counting mode (`fastview=False`), inserting the
leaf `'a/b'` into an empty fdict stores exactly the leaf; the ancestor
node-marker `'a/'` does not exist afterwards, let alone hold a positive
integer — the counting branch of `_build_metadata` is never invoked by
`__setitem__`. -/
theorem c2_counterexample :
    (setitemFd ⟨[], "", false⟩ "a/b" (NVal.leaf 1)).1 = [("a/b", Entry.leaf 1)] ∧
    dlookup (setitemFd ⟨[], "", false⟩ "a/b" (NVal.leaf 1)).1 "a/" = none := by decide

/-- C2 (amended): in counting mode, inserting a scalar leaf performs no
counter maintenance at all: the resulting store is exactly the old store
with the leaf written at its full path, it never raises, and every ancestor
node-marker entry is left exactly as it was. -/
theorem c2_amended (d : Store) (rootpath key : String) (v : Nat) :
    (setitemFd ⟨d, rootpath, false⟩ key (NVal.leaf v)).2 = none ∧
    (setitemFd ⟨d, rootpath, false⟩ key (NVal.leaf v)).1
      = dset d (buildPath rootpath key) (Entry.leaf v) ∧
    (∀ a, a ∈ parentNodes (buildPath rootpath key) → a ≠ buildPath rootpath key →
      dlookup (setitemFd ⟨d, rootpath, false⟩ key (NVal.leaf v)).1 a = dlookup d a) := by
  refine ⟨rfl, rfl, ?_⟩
  intro a _ ha
  show dlookup (dset d (buildPath rootpath key) (Entry.leaf v)) a = dlookup d a
  exact dlookup_dset_ne _ _ _ _ ha

/-- C2 witness: the amended statement applied at the concrete insertion of
`'a/b'` into the empty counting-mode fdict, ancestor `'a/'`. -/
theorem c2_amended_witness :
    dlookup (setitemFd ⟨[], "", false⟩ "a/b" (NVal.leaf 7)).1 "a/" = dlookup ([] : Store) "a/" :=
  (c2_amended [] "" "a/b" 7).2.2 "a/" (by decide) (by decide)

/-! ## Claim C3 -/

/-- C3: the claim states that `update` rebuilds index metadata for the newly
introduced leaves, so that afterwards every node's child-set matches the
existing paths below it.  In the source, `d2items` is a one-shot generator
already exhausted by the bulk `dict.update`, so for an fdict operand the
metadata rebuild receives no keys: after updating `{'a/b': 1}` (fastview,
with its index) with the fastview fdict `{'c/d': 2}`, the leaf `'c/d'` is
written but the node `'c/'` is never created.  For a plain-mapping operand
the source instead feeds `(path, value)` tuples to `_build_metadata`, which
raises `AttributeError`. -/
theorem c3_code_evaluation :
    updateFd (fdinit [(.str "a", .dict [(.str "b", .leaf 1)])] true)
        (fdinit [(.str "c", .dict [(.str "d", .leaf 2)])] true)
      = .ok [("a/b", Entry.leaf 1), ("a/", Entry.node ["a/b"]), ("c/d", Entry.leaf 2)] ∧
    dlookup [("a/b", Entry.leaf 1), ("a/", Entry.node ["a/b"]), ("c/d", Entry.leaf 2)] "c/"
      = none ∧
    updateFdDict (fdinit [(.str "a", .dict [(.str "b", .leaf 1)])] true)
        [(.str "c", .dict [(.str "d", .leaf 2)])] = .error "AttributeError" := by decide

/-! ## Claim C6 -/

/-- C6 (counterexample): setting a key to an empty mapping is not a no-op
when a leaf was previously stored at that full path: the source deletes the
old singleton before noticing the mapping is empty, so `x['a'] = {}` on
`{'a': 1}` leaves an empty store. -/
theorem c6_counterexample :
    setitemFd ⟨[("a", Entry.leaf 1)], "", false⟩ "a" (NVal.dict []) = ([], none) ∧
    ([] : Store) ≠ [("a", Entry.leaf 1)] := by decide

/-- C6 (amended): setting a key to an empty mapping stores nothing; when no
leaf previously existed at the key's full path the backing store is left
completely unchanged (when a leaf did exist, it is deleted first, as the
counterexample shows). -/
theorem c6_amended (d : Store) (rootpath key : String) (fastview : Bool)
    (h : dmem d (buildPath rootpath key) = false) :
    setitemFd ⟨d, rootpath, fastview⟩ key (NVal.dict []) = (d, none) := by
  simp [setitemFd, h]

/-- C6 witness: the amended statement at a fastview fdict holding `{'a': 1}`
and the fresh key `'b'`. -/
theorem c6_amended_witness :
    setitemFd ⟨[("a", Entry.leaf 1)], "", true⟩ "b" (NVal.dict [])
      = ([("a", Entry.leaf 1)], none) :=
  c6_amended [("a", Entry.leaf 1)] "" "b" true (by decide)

/-! ## Claim C7 -/

/-- C7: the fastview delete cascade removes exactly the chain of emptied
ancestors.  Inserting `a/b/c=1` then `a/b/d=2` into an empty fastview fdict,
deleting `a/b/c` leaves the leaf `a/b/d` and the index entries `a/` and
`a/b/` intact (with `a/b/c` removed from its parent's child-set); deleting
`a/b/d` afterwards removes the node entries `a/b/` and `a/` entirely,
leaving an empty store. -/
theorem c7_delete_cascade :
    setitemFd ⟨[], "", true⟩ "a/b/c" (NVal.leaf 1)
      = ([("a/b/", Entry.node ["a/b/c"]), ("a/", Entry.node ["a/b/"]),
          ("a/b/c", Entry.leaf 1)], none) ∧
    setitemFd ⟨[("a/b/", Entry.node ["a/b/c"]), ("a/", Entry.node ["a/b/"]),
        ("a/b/c", Entry.leaf 1)], "", true⟩ "a/b/d" (NVal.leaf 2)
      = ([("a/b/", Entry.node ["a/b/c", "a/b/d"]), ("a/", Entry.node ["a/b/"]),
          ("a/b/c", Entry.leaf 1), ("a/b/d", Entry.leaf 2)], none) ∧
    delitemFd [("a/b/", Entry.node ["a/b/c", "a/b/d"]), ("a/", Entry.node ["a/b/"]),
        ("a/b/c", Entry.leaf 1), ("a/b/d", Entry.leaf 2)] "" true "a/b/c"
      = ([("a/b/", Entry.node ["a/b/d"]), ("a/", Entry.node ["a/b/"]),
          ("a/b/d", Entry.leaf 2)], none) ∧
    delitemFd [("a/b/", Entry.node ["a/b/d"]), ("a/", Entry.node ["a/b/"]),
        ("a/b/d", Entry.leaf 2)] "" true "a/b/d"
      = ([], none) := by decide

/-! ## Claim C8 -/

/-- C8: writing a leaf at a path that currently carries a node marker first
deletes the whole subtree: with `a/b/c=1` stored (fastview, with its index),
setting `a/b = 5` removes `a/b/c` and the node `a/b/`, leaving exactly the
singleton leaf `a/b = 5` with consistent index metadata (`a/` holding just
`a/b`). -/
theorem c8_leaf_overwrites_node :
    setitemFd ⟨[("a/b/", Entry.node ["a/b/c"]), ("a/", Entry.node ["a/b/"]),
        ("a/b/c", Entry.leaf 1)], "", true⟩ "a/b" (NVal.leaf 5)
      = ([("a/", Entry.node ["a/b"]), ("a/b", Entry.leaf 5)], none) := by decide

/-! ## Claim C9 -/

/-- C9: the claim states that delete raises exactly when neither a leaf nor
a descendant exists, and that a raising delete leaves the store unchanged.
On the fastview store `{'a/b': 1, 'a/': {'a/b'}}` viewed at rootpath `'a'`,
deleting the existing leaf `'b'` raises a `KeyError` (the cascade calls
`self.__delitem__('a/')` with the full parent path, which the view re-roots
to the nonsense key `'a/a/'`) and leaves the store half-mutated: the child
`'a/b'` has already been removed from the parent set `'a/'`, while the leaf
entry `'a/b'` was never deleted. -/
theorem c9_code_evaluation :
    dmem [("a/b", Entry.leaf 1), ("a/", Entry.node ["a/b"])] (buildPath "a" "b") = true ∧
    delitemFd [("a/b", Entry.leaf 1), ("a/", Entry.node ["a/b"])] "a" true "b"
      = ([("a/b", Entry.leaf 1), ("a/", Entry.node [])], some "a/a/") := by decide

/-! ## Claim C4 (counterexample part) -/

theorem buildPath_empty_root (k : String) : buildPath "" k = k := by
  by_cases hk : k = ""
  · subst hk; rfl
  · simp [buildPath, buildPathP, joinSlash, hk]

theorem mem_keysOf_iff {d : Store} {k : String} : k ∈ keysOf d ↔ ∃ e, (k, e) ∈ d := by
  constructor
  · intro h
    rcases List.mem_map.mp h with ⟨kv, hm, he⟩
    exact ⟨kv.2, by rw [← he, Prod.mk.eta]; exact hm⟩
  · rintro ⟨e, hm⟩
    exact List.mem_map.mpr ⟨(k, e), hm, rfl⟩

theorem keysOf_nodup {d : Store} (hd : nodupKeys d = true) : (keysOf d).Nodup := by
  induction d with
  | nil => simp [keysOf]
  | cons kv rest ih =>
      obtain ⟨k, e⟩ := kv
      simp only [nodupKeys, Bool.and_eq_true, Bool.not_eq_true'] at hd
      have hk : k ∉ keysOf rest := by
        rw [← dlookup_eq_none_iff]
        cases hdl : dlookup rest k with
        | none => rfl
        | some e0 => simp [dmem, hdl] at hd
      rw [show keysOf ((k, e) :: rest) = k :: keysOf rest from rfl, List.nodup_cons]
      exact ⟨hk, ih hd.2⟩

theorem mem_of_subset_of_nodup_len {l1 l2 : List String} (h1 : l1.Nodup) (h2 : l2.Nodup)
    (hs : ∀ x ∈ l1, x ∈ l2) (hl : l2.length ≤ l1.length) : ∀ x ∈ l2, x ∈ l1 := by
  have hsub : l1.toFinset ⊆ l2.toFinset := by
    intro x hx
    simp only [List.mem_toFinset] at hx ⊢
    exact hs x hx
  have hc1 : l1.toFinset.card = l1.length := List.toFinset_card_of_nodup h1
  have hc2 : l2.toFinset.card = l2.length := List.toFinset_card_of_nodup h2
  have hfe : l1.toFinset = l2.toFinset :=
    Finset.eq_of_subset_of_card_le hsub (by omega)
  intro x hx
  have hx1 : x ∈ l1.toFinset := by rw [hfe]; exact List.mem_toFinset.mpr hx
  exact List.mem_toFinset.mp hx1

theorem length_eq_of_nodup_mem_iff {l1 l2 : List String} (h1 : l1.Nodup) (h2 : l2.Nodup)
    (h : ∀ x, x ∈ l1 ↔ x ∈ l2) : l1.length = l2.length := by
  have hfe : l1.toFinset = l2.toFinset := by
    ext x
    simp [List.mem_toFinset, h x]
  calc l1.length = l1.toFinset.card := (List.toFinset_card_of_nodup h1).symm
    _ = l2.toFinset.card := by rw [hfe]
    _ = l2.length := List.toFinset_card_of_nodup h2

theorem mem_flatkeysStr_leaf {d2 : List (PKey × NVal)} {k : String} {e : Entry}
    (h : (k, e) ∈ flatkeysStr d2) : ∃ n, e = Entry.leaf n := by
  rcases List.mem_filterMap.mp h with ⟨a, _, ha⟩
  cases hk : a.1 with
  | str s =>
      rw [hk] at ha
      simp only [Option.some.injEq, Prod.mk.injEq] at ha
      exact ⟨a.2, ha.2.symm⟩
  | int n =>
      rw [hk] at ha
      simp at ha

theorem flatAllStr_spec {l : FlatMap} (h : flatAllStr l = true) :
    ∀ kv ∈ l, ∃ s : String, kv.1 = PKey.str s := by
  intro kv hkv
  have h2 := List.all_eq_true.mp h kv hkv
  cases hk : kv.1 with
  | str s => exact ⟨s, rfl⟩
  | int n =>
      rw [hk] at h2
      simp at h2

theorem strProject_cons_str (s0 : String) (v0 : Nat) (rest : FlatMap) :
    strProject ((PKey.str s0, v0) :: rest) = (s0, Entry.leaf v0) :: strProject rest := rfl

theorem strProject_cons_int (n v0 : Nat) (rest : FlatMap) :
    strProject ((PKey.int n, v0) :: rest) = strProject rest := rfl

theorem strProject_length {l : FlatMap}
    (hstr : ∀ kv ∈ l, ∃ s : String, kv.1 = PKey.str s) :
    (strProject l).length = l.length := by
  induction l with
  | nil => rfl
  | cons kv rest ih =>
      obtain ⟨k0, v0⟩ := kv
      obtain ⟨s0, hs⟩ := hstr (k0, v0) (List.mem_cons_self _ _)
      have hs2 : k0 = PKey.str s0 := hs
      subst hs2
      rw [strProject_cons_str, List.length_cons, List.length_cons,
        ih (fun kv hkv => hstr kv (List.mem_cons_of_mem _ hkv))]

theorem eqItemCheck_str (d : Store) :
    ∀ {l : FlatMap}, (∀ kv ∈ l, ∃ s : String, kv.1 = PKey.str s) →
      (eqItemCheck d "" l = .ok true ↔
        ∀ kv ∈ strProject l, dlookup d kv.1 = some kv.2) := by
  intro l
  induction l with
  | nil =>
      intro _
      simp [eqItemCheck, strProject]
  | cons kv rest ih =>
      intro hstr
      obtain ⟨k0, v0⟩ := kv
      obtain ⟨s0, hs⟩ := hstr (k0, v0) (List.mem_cons_self _ _)
      have hs2 : k0 = PKey.str s0 := hs
      subst hs2
      have hrest : ∀ kv ∈ rest, ∃ s : String, kv.1 = PKey.str s :=
        fun kv hkv => hstr kv (List.mem_cons_of_mem _ hkv)
      rw [strProject_cons_str]
      simp only [eqItemCheck]
      rw [buildPath_empty_root]
      cases hdl : dlookup d s0 with
      | none =>
          simp [List.forall_mem_cons, hdl]
      | some e =>
          show (if entryEqPy e (Entry.leaf v0) = true then eqItemCheck d "" rest
                else Except.ok false) = Except.ok true ↔
            ∀ kv ∈ (s0, Entry.leaf v0) :: strProject rest, dlookup d kv.1 = some kv.2
          by_cases hbe : entryEqPy e (Entry.leaf v0) = true
          · have he2 : e = Entry.leaf v0 := by
              cases e with
              | leaf a =>
                  have ha : a = v0 := by simpa [entryEqPy] using hbe
                  rw [ha]
              | node cs => simp [entryEqPy] at hbe
            subst he2
            rw [if_pos hbe, ih hrest]
            simp [List.forall_mem_cons, hdl]
          · have hbf : entryEqPy e (Entry.leaf v0) = false := by
              cases hq : entryEqPy e (Entry.leaf v0)
              · rfl
              · exact absurd hq hbe
            rw [if_neg (by simp [hbf])]
            constructor
            · intro hcontra
              simp at hcontra
            · intro hall
              exfalso
              have hhead : dlookup d s0 = some (Entry.leaf v0) :=
                hall (s0, Entry.leaf v0) (List.mem_cons_self _ _)
              rw [hdl] at hhead
              injection hhead with he2
              subst he2
              simp [entryEqPy] at hbf

/-! ## Claim C5 (amended part) -/

/-- C5 (amended): for the root non-fastview caller compared against a plain
mapping whose flattened form is string-keyed, the source's equality — a size
check against the full flattened dict, then the item-by-item comparison
loop — holds exactly when the backing dict and the flattened mapping agree
as maps, i.e. they have the same flattened leaf set.  A plain mapping whose
flattened form retains a non-string key instead fails the size check
(returning False: comparing the empty fdict to `{1: 42}`, second conjunct)
or raises `TypeError` when `_build_path` joins the non-string key (comparing
`{'1': 42}` to `{1: 42}`, third conjunct).  (For two root fdicts, the source
compares raw backing dicts, metadata included — see the counterexample.) -/
theorem c5_amended (d : Store) (d2 : List (PKey × NVal))
    (hd : nodupKeys d = true)
    (hstr : flatAllStr (flatkeys d2 "/") = true)
    (hf : nodupKeys (flatkeysStr d2) = true) :
    ((eqFdDict ⟨d, "", false⟩ d2 = .ok true ↔
        ∀ k, dlookup d k = dlookup (flatkeysStr d2) k) ∧
      eqFdDict ⟨[], "", false⟩ [(.int 1, .leaf 42)] = .ok false ∧
      eqFdDict ⟨[("1", Entry.leaf 42)], "", false⟩ [(.int 1, .leaf 42)]
        = .error "TypeError") := by
  refine ⟨?_, by decide, by decide⟩
  have hstrAll : ∀ kv ∈ flatkeys d2 "/", ∃ s : String, kv.1 = PKey.str s :=
    flatAllStr_spec hstr
  have hlen2 : (flatkeysStr d2).length = (flatkeys d2 "/").length :=
    strProject_length hstrAll
  have heqd : eqFdDict ⟨d, "", false⟩ d2
      = (if d.length ≠ (flatkeys d2 "/").length then .ok false
         else eqItemCheck d "" (flatkeys d2 "/")) := rfl
  have hcore : eqFdDict ⟨d, "", false⟩ d2 = .ok true ↔
      (d.length = (flatkeysStr d2).length ∧
        ∀ kv ∈ flatkeysStr d2, dlookup d kv.1 = some kv.2) := by
    rw [heqd]
    by_cases hlen : d.length = (flatkeys d2 "/").length
    · rw [if_neg (not_not_intro hlen), eqItemCheck_str d hstrAll]
      constructor
      · intro h
        exact ⟨hlen.trans hlen2.symm, h⟩
      · rintro ⟨-, h⟩
        exact h
    · rw [if_pos hlen]
      constructor
      · intro h
        simp at h
      · rintro ⟨h1, -⟩
        exact absurd (h1.trans hlen2) hlen
  rw [hcore]
  constructor
  · rintro ⟨hlen, hall⟩
    have hsubk : ∀ x ∈ keysOf (flatkeysStr d2), x ∈ keysOf d := by
      intro x hx
      obtain ⟨e, he⟩ := mem_keysOf_iff.mp hx
      have : dlookup d x = some e := hall (x, e) he
      exact mem_keysOf_iff.mpr ⟨e, dlookup_mem this⟩
    have hlenk : (keysOf d).length ≤ (keysOf (flatkeysStr d2)).length := by
      simp [keysOf, List.length_map]
      omega
    have hconv : ∀ x ∈ keysOf d, x ∈ keysOf (flatkeysStr d2) :=
      mem_of_subset_of_nodup_len (keysOf_nodup hf) (keysOf_nodup hd) hsubk hlenk
    intro k
    cases hfl : dlookup (flatkeysStr d2) k with
    | some v =>
        have : (k, v) ∈ flatkeysStr d2 := dlookup_mem hfl
        exact hall (k, v) this
    | none =>
        have hk1 : k ∉ keysOf (flatkeysStr d2) := (dlookup_eq_none_iff _ k).mp hfl
        have hk2 : k ∉ keysOf d := fun hc => hk1 (hconv k hc)
        exact (dlookup_eq_none_iff d k).mpr hk2
  · intro h
    constructor
    · have hmemiff : ∀ x, x ∈ keysOf d ↔ x ∈ keysOf (flatkeysStr d2) := by
        intro x
        constructor
        · intro hx
          by_contra hc
          have h1 : dlookup (flatkeysStr d2) x = none := (dlookup_eq_none_iff _ x).mpr hc
          have h2 : dlookup d x = none := by rw [h x, h1]
          exact ((dlookup_eq_none_iff d x).mp h2) hx
        · intro hx
          by_contra hc
          have h1 : dlookup d x = none := (dlookup_eq_none_iff d x).mpr hc
          have h2 : dlookup (flatkeysStr d2) x = none := by rw [← h x, h1]
          exact ((dlookup_eq_none_iff _ x).mp h2) hx
      have := length_eq_of_nodup_mem_iff (keysOf_nodup hd) (keysOf_nodup hf) hmemiff
      simpa [keysOf, List.length_map] using this
    · intro kv hkv
      have : dlookup (flatkeysStr d2) kv.1 = some kv.2 :=
        dlookup_of_mem_nodup hf (by rwa [Prod.mk.eta])
      rw [h kv.1, this]

/-- C5 witness: the amended statement at the store `{'x': 5}` and the plain
mapping `{'x': 5}` (backing dict equals the flattened mapping, so equality
returns true). -/
theorem c5_amended_witness :
    eqFdDict ⟨[("x", Entry.leaf 5)], "", false⟩ [(.str "x", .leaf 5)] = .ok true ↔
      ∀ k, dlookup [("x", Entry.leaf 5)] k = dlookup (flatkeysStr [(.str "x", .leaf 5)]) k :=
  (c5_amended [("x", Entry.leaf 5)] [(.str "x", .leaf 5)] (by decide) (by decide)
    (by decide)).1

/-! ## Flattener lemmas (for claim C10) -/

theorem finsert_mem_self (fl : FlatMap) (key : PKey) (v : Nat) :
    (key, v) ∈ finsert fl key v := by
  induction fl with
  | nil => simp [finsert]
  | cons kv rest ih =>
      obtain ⟨k0, v0⟩ := kv
      by_cases h : k0 = key
      · simp [finsert, h]
      · simp only [finsert, if_neg h]
        exact List.mem_cons_of_mem _ ih

theorem finsert_mem_keys {fl : FlatMap} {k : PKey} (key : PKey) (v : Nat)
    (h : ∃ w, (k, w) ∈ fl) : ∃ w, (k, w) ∈ finsert fl key v := by
  by_cases hk : k = key
  · subst hk
    exact ⟨v, finsert_mem_self fl k v⟩
  · obtain ⟨w, hw⟩ := h
    refine ⟨w, ?_⟩
    induction fl with
    | nil => simp at hw
    | cons kv rest ih =>
        obtain ⟨k0, v0⟩ := kv
        by_cases h0 : k0 = key
        · subst h0
          simp only [finsert, if_pos rfl]
          rcases List.mem_cons.mp hw with h1 | h1
          · exact absurd (congrArg Prod.fst h1) hk
          · exact List.mem_cons_of_mem _ h1
        · simp only [finsert, if_neg h0]
          rcases List.mem_cons.mp hw with h1 | h1
          · exact h1 ▸ List.mem_cons_self _ _
          · exact List.mem_cons_of_mem _ (ih h1)

theorem finsert_mem_inv {fl : FlatMap} {key k : PKey} {v w : Nat}
    (h : (k, w) ∈ finsert fl key v) : (∃ w1, (k, w1) ∈ fl) ∨ k = key := by
  induction fl with
  | nil =>
      simp [finsert] at h
      exact Or.inr h.1
  | cons kv rest ih =>
      obtain ⟨k0, v0⟩ := kv
      by_cases h0 : k0 = key
      · subst h0
        simp only [finsert, if_pos rfl] at h
        rcases List.mem_cons.mp h with h1 | h1
        · exact Or.inr (congrArg Prod.fst h1)
        · exact Or.inl ⟨w, List.mem_cons_of_mem _ h1⟩
      · simp only [finsert, if_neg h0] at h
        rcases List.mem_cons.mp h with h1 | h1
        · have hk0 : k = k0 := congrArg Prod.fst h1
          exact Or.inl ⟨v0, by rw [hk0]; exact List.mem_cons_self _ _⟩
        · rcases ih h1 with ⟨w1, hw1⟩ | h2
          · exact Or.inl ⟨w1, List.mem_cons_of_mem _ hw1⟩
          · exact Or.inr h2

theorem writeLeaves_mem_mono (pre : String) (es : List (PKey × NVal)) :
    ∀ flat (k : PKey), (∃ w, (k, w) ∈ flat) → ∃ w, (k, w) ∈ writeLeaves pre es flat := by
  induction es with
  | nil => intro flat k h; exact h
  | cons e rest ih =>
      obtain ⟨k0, v0⟩ := e
      intro flat k h
      cases v0 with
      | leaf x => exact ih _ k (finsert_mem_keys _ _ h)
      | dict sub => exact ih _ k h

theorem writeLeaves_mem_self {es : List (PKey × NVal)} {k : PKey} {v : Nat}
    (h : (k, NVal.leaf v) ∈ es) :
    ∀ flat, ∃ w, (k, w) ∈ writeLeaves "" es flat := by
  induction es with
  | nil => simp at h
  | cons e rest ih =>
      obtain ⟨k0, v0⟩ := e
      intro flat
      rcases List.mem_cons.mp h with h1 | h1
      · have hk : k0 = k := (congrArg Prod.fst h1).symm
        have hv2 : v0 = NVal.leaf v := (congrArg Prod.snd h1).symm
        rw [hk, hv2]
        exact writeLeaves_mem_mono "" rest _ k ⟨v, finsert_mem_self flat k v⟩
      · exact ih h1 _

theorem writeLeaves_mem_inv (pre : String) (es : List (PKey × NVal)) :
    ∀ flat (k : PKey) (w : Nat), (k, w) ∈ writeLeaves pre es flat →
      (∃ w1, (k, w1) ∈ flat) ∨
      (∃ k0 v0, (k0, NVal.leaf v0) ∈ es ∧
        k = (if pre ≠ "" then PKey.str (pre ++ k0.toStr) else k0)) := by
  induction es with
  | nil => intro flat k w h; exact Or.inl ⟨w, h⟩
  | cons e rest ih =>
      obtain ⟨ke, ve⟩ := e
      intro flat k w h
      cases ve with
      | leaf x =>
          rcases ih _ k w h with h2 | ⟨k0, v0, hm, hkk⟩
          · rcases finsert_mem_inv h2.choose_spec with h3 | h3
            · exact Or.inl h3
            · exact Or.inr ⟨ke, x, List.mem_cons_self _ _, h3⟩
          · exact Or.inr ⟨k0, v0, List.mem_cons_of_mem _ hm, hkk⟩
      | dict sub =>
          rcases ih _ k w h with h2 | ⟨k0, v0, hm, hkk⟩
          · exact Or.inl h2
          · exact Or.inr ⟨k0, v0, List.mem_cons_of_mem _ hm, hkk⟩

theorem mem_pushesOf {sep pre : String} {es : List (PKey × NVal)}
    {w : String × List (PKey × NVal)} (h : w ∈ pushesOf sep pre es) :
    ∃ k sub, (k, NVal.dict sub) ∈ es ∧ w = (pre ++ k.toStr ++ sep, sub) := by
  induction es with
  | nil => simp [pushesOf] at h
  | cons e rest ih =>
      obtain ⟨ke, ve⟩ := e
      cases ve with
      | leaf x =>
          rcases ih (by simpa [pushesOf] using h) with ⟨k, sub, hm, hshape⟩
          exact ⟨k, sub, List.mem_cons_of_mem _ hm, hshape⟩
      | dict sub0 =>
          have h1 : w = (pre ++ ke.toStr ++ sep, sub0) ∨ w ∈ pushesOf sep pre rest := by
            simpa [pushesOf] using h
          rcases h1 with h2 | h2
          · exact ⟨ke, sub0, List.mem_cons_self _ _, h2⟩
          · rcases ih h2 with ⟨k, sub, hm, hshape⟩
            exact ⟨k, sub, List.mem_cons_of_mem _ hm, hshape⟩

theorem str_append_ne_empty {a b : String} (hb : b ≠ "") : a ++ b ≠ "" := by
  intro h
  apply hb
  have hd := congrArg String.data h
  rw [String.data_append] at hd
  have hb0 : b.data = [] := (List.append_eq_nil.mp hd).2
  exact String.ext hb0

theorem flatkeysAux_mem_mono (sep : String) :
    ∀ fuel ws flat (k : PKey), (∃ w, (k, w) ∈ flat) →
      ∃ w, (k, w) ∈ flatkeysAux sep fuel ws flat := by
  intro fuel
  induction fuel with
  | zero =>
      intro ws flat k h
      cases ws <;> simpa [flatkeysAux] using h
  | succ fuel ih =>
      intro ws flat k h
      cases ws with
      | nil => simpa [flatkeysAux] using h
      | cons w0 rest =>
          obtain ⟨pre, es⟩ := w0
          exact ih _ _ k (writeLeaves_mem_mono pre es flat k h)

theorem flatkeysAux_keys_inv (sep : String) (hsep : sep ≠ "") (P : PKey → Prop)
    (hstr : ∀ s, P (PKey.str s)) :
    ∀ fuel ws flat, (∀ w ∈ ws, w.1 ≠ "") → (∀ k v, (k, v) ∈ flat → P k) →
      ∀ (k : PKey) (v : Nat), (k, v) ∈ flatkeysAux sep fuel ws flat → P k := by
  intro fuel
  induction fuel with
  | zero =>
      intro ws flat hws hflat k v h
      cases ws <;> exact hflat k v (by simpa [flatkeysAux] using h)
  | succ fuel ih =>
      intro ws flat hws hflat k v h
      cases ws with
      | nil => exact hflat k v (by simpa [flatkeysAux] using h)
      | cons w0 rest =>
          obtain ⟨pre, es⟩ := w0
          have hpre : pre ≠ "" := hws _ (List.mem_cons_self _ _)
          refine ih ((pushesOf sep pre es).reverse ++ rest) (writeLeaves pre es flat)
            ?_ ?_ k v h
          · intro w1 hw1
            rcases List.mem_append.mp hw1 with h1 | h1
            · rcases mem_pushesOf (List.mem_reverse.mp h1) with ⟨k0, sub, -, hshape⟩
              rw [hshape]
              exact str_append_ne_empty hsep
            · exact hws _ (List.mem_cons_of_mem _ h1)
          · intro k1 v1 h1
            rcases writeLeaves_mem_inv pre es flat k1 v1 h1 with h2 | ⟨k0, v0, -, hkk⟩
            · exact hflat k1 h2.choose h2.choose_spec
            · rw [hkk, if_pos hpre]
              exact hstr _

/-! ## Claim C10 -/

/-- C10: `flatkeys` treats top-level and nested keys asymmetrically.  Every
top-level key with a non-mapping value is stored under the original key
object, unchanged (an integer key stays an integer); every other key of the
output — in particular every key that lay under at least one nested mapping
— is a string (built as `prefix + str(k)` with the prefix rows joined by the
delimiter; the witness shows the concrete join `'2' + '/' + '3'`). -/
theorem c10_flatkeys_asymmetry (d : List (PKey × NVal)) (sep : String) (hsep : sep ≠ "") :
    (∀ (k : PKey) (v : Nat), (k, NVal.leaf v) ∈ d → ∃ w, (k, w) ∈ flatkeys d sep) ∧
    (∀ (k : PKey) (w : Nat), (k, w) ∈ flatkeys d sep →
      (∃ v, (k, NVal.leaf v) ∈ d) ∨ ∃ s, k = PKey.str s) := by
  have hstep : flatkeys d sep
      = flatkeysAux sep (wsSize [("", d)]) ((pushesOf sep "" d).reverse ++ [])
          (writeLeaves "" d []) := rfl
  constructor
  · intro k v hk
    rw [hstep]
    exact flatkeysAux_mem_mono sep _ _ _ k (writeLeaves_mem_self hk [])
  · intro k w hk
    rw [hstep] at hk
    refine flatkeysAux_keys_inv sep hsep
      (fun k1 => (∃ v, (k1, NVal.leaf v) ∈ d) ∨ ∃ s, k1 = PKey.str s)
      (fun s => Or.inr ⟨s, rfl⟩) _ _ _ ?_ ?_ k w hk
    · intro w1 hw1
      rcases List.mem_append.mp hw1 with h1 | h1
      · rcases mem_pushesOf (List.mem_reverse.mp h1) with ⟨k0, sub, -, hshape⟩
        rw [hshape]
        exact str_append_ne_empty hsep
      · simp at h1
    · intro k1 v1 h1
      rcases writeLeaves_mem_inv "" d [] k1 v1 h1 with h2 | ⟨k0, v0, hm, hkk⟩
      · simp at h2
      · simp only [ne_eq, not_true_eq_false, if_false, ite_false] at hkk
        exact Or.inl ⟨v0, hkk ▸ hm⟩

/-- C10 witness: the asymmetry at the concrete mapping
`{1: 42, 2: {3: 4}}`: the top-level integer key 1 survives as an integer,
while the nested integer key 3 becomes the string `"2/3"` joined with the
delimiter; both parts of the theorem applied there. -/
theorem c10_flatkeys_asymmetry_witness :
    flatkeys [(.int 1, .leaf 42), (.int 2, .dict [(.int 3, .leaf 4)])] "/"
      = [(.int 1, 42), (.str "2/3", 4)] ∧
    (∃ w, (PKey.int 1, w) ∈
      flatkeys [(.int 1, .leaf 42), (.int 2, .dict [(.int 3, .leaf 4)])] "/") ∧
    (∀ (k : PKey) (w : Nat),
      (k, w) ∈ flatkeys [(.int 1, .leaf 42), (.int 2, .dict [(.int 3, .leaf 4)])] "/" →
      (∃ v, (k, NVal.leaf v) ∈
        [((PKey.int 1), NVal.leaf 42), (.int 2, .dict [(.int 3, .leaf 4)])]) ∨
      ∃ s, k = PKey.str s) :=
  ⟨by decide,
   (c10_flatkeys_asymmetry [(.int 1, .leaf 42), (.int 2, .dict [(.int 3, .leaf 4)])] "/"
      (by decide)).1 (PKey.int 1) 42 (List.mem_cons_self _ _),
   (c10_flatkeys_asymmetry [(.int 1, .leaf 42), (.int 2, .dict [(.int 3, .leaf 4)])] "/"
      (by decide)).2⟩

/-! ## Claim C5 (counterexample part) -/

/-- C5 (counterexample): equality of two root fdicts compares the raw
backing dicts, metadata included, so the fastview and plain fdicts built
from the same mapping `{'a': {'b': 1}}` — with identical flattened leaf sets
— compare unequal: the comparison is sensitive to the index mode. -/
theorem c5_counterexample :
    eqFdFd (fdinit [(.str "a", .dict [(.str "b", .leaf 1)])] true)
        (fdinit [(.str "a", .dict [(.str "b", .leaf 1)])] false) = .ok false ∧
    itemsFd (fdinit [(.str "a", .dict [(.str "b", .leaf 1)])] true)
      = .ok [("a/b", Entry.leaf 1)] ∧
    itemsFd (fdinit [(.str "a", .dict [(.str "b", .leaf 1)])] false)
      = .ok [("a/b", Entry.leaf 1)] := by decide

end Fdict
